import Mathlib

/-!
Verification of the Kernel Polynomial Method (KPM) expansion engine described
by the tutorial corpus.  The tutorial notebooks call into the engine
(`pb.kpm`, `KPM.moments`, `kernel.required_num_moments`, lattice assembly) and
re-implement the density reconstruction by hand in the low-level example of
the KPM notebook.  The hand-written reconstruction is embedded here directly
from that notebook cell; the engine pieces that the notebooks only call are
modelled from the specification, as marked on each definition.
-/

open scoped BigOperators

namespace KPMSpec

/-- Modelled from the spec: the error taxonomy of section 7.  The engine
itself is not part of the tutorial sources, which only call it. -/
inductive KPMError
  | degenerateSpectrum
  | invalidMomentCount
  | energyOutOfBounds
  | dimensionMismatch
deriving DecidableEq

/-- The bra-ket inner product of two dense complex vectors: the first
argument is conjugated. -/
noncomputable def innerC {N : ℕ} (β v : Fin N → ℂ) : ℂ :=
  ∑ i, (starRingEnd ℂ) (β i) * v i

/-- Modelled from the spec: the three-term Chebyshev recurrence vectors of
the Moment Generator (section 4.3), whose implementation is not in the
tutorial sources.  `t 0 = α`, `t 1 = H α`, `t (n+2) = 2 H (t (n+1)) - t n`. -/
noncomputable def chebVec {N : ℕ} (H : Matrix (Fin N) (Fin N) ℂ) (α : Fin N → ℂ) :
    ℕ → Fin N → ℂ
  | 0 => α
  | 1 => H.mulVec α
  | n + 2 => (2 : ℂ) • H.mulVec (chebVec H α (n + 1)) - chebVec H α n

/-- Modelled from the spec: the n-th expansion moment of the Moment
Generator, `μ n = ⟨β| Op |t n⟩`. -/
noncomputable def moment {N : ℕ} (H op : Matrix (Fin N) (Fin N) ℂ)
    (α β : Fin N → ℂ) (n : ℕ) : ℂ :=
  innerC β (op.mulVec (chebVec H α n))

/-- Modelled from the spec: `KPM.moments`, returning the sequence
`μ 0 .. μ (M-1)`, failing eagerly with `InvalidMomentCountError` when the
requested moment count is below one (section 4.3 and section 7). -/
noncomputable def moments {N : ℕ} (H op : Matrix (Fin N) (Fin N) ℂ)
    (α β : Fin N → ℂ) (M : ℤ) : Except KPMError (List ℂ) :=
  if M < 1 then .error .invalidMomentCount
  else .ok ((List.range M.toNat).map (moment H op α β))

/-- Modelled from the spec: the Jackson kernel sizing rule of section 4.4,
`required_num_moments ε = ceil (π / ε)` for the scaled broadening ε. -/
noncomputable def required_num_moments (ε : ℝ) : ℤ :=
  ⌈Real.pi / ε⌉

/-- The hand-written density reconstruction from the low-level cell of the
KPM notebook: `x = (E - b) / a`, `k = 2 / (a π sqrt (1 - x^2))` and
`ldos = k * Σ n, Re (μ n) * cos (n * arccos x)`, summed over the whole
moment list (the notebook sums `moments.real * chebyshev` over all `ns`). -/
noncomputable def ldos (ms : List ℂ) (a b E : ℝ) : ℝ :=
  let x : ℝ := (E - b) / a
  let k : ℝ := 2 / (a * Real.pi * Real.sqrt (1 - x ^ 2))
  k * ∑ n ∈ Finset.range ms.length, (ms.getD n 0).re * Real.cos (n * Real.arccos x)

/-- The density reconstruction formula exactly as the spec states it in
section 4.5, for comparison with the notebook code: the zeroth damped moment
is counted once and every later term is doubled. -/
noncomputable def ldos_spec_formula (ms : List ℂ) (a b E : ℝ) : ℝ :=
  let x : ℝ := (E - b) / a
  (1 / (a * Real.pi * Real.sqrt (1 - x ^ 2))) *
    ((ms.getD 0 0).re +
      2 * ∑ n ∈ Finset.range (ms.length - 1),
        (ms.getD (n + 1) 0).re * Real.cos ((n + 1 : ℕ) * Real.arccos x))

/-- The low-level LDOS pipeline of the KPM notebook: obtain the moment
sequence from the Moment Generator, then map the hand-written reconstruction
over the requested energies.  No step inspects the energies against the
spectral bounds. -/
noncomputable def calc_ldos_low_level {N : ℕ} (H : Matrix (Fin N) (Fin N) ℂ)
    (α : Fin N → ℂ) (M : ℤ) (a b : ℝ) (energies : List ℝ) :
    Except KPMError (List ℝ) :=
  (moments H 1 α α M).map fun ms => energies.map (ldos ms a b)

/-- Modelled from the spec: a finitely supported distribution of random
vectors as used by the Stochastic Trace Estimator (section 4.6): sample
space `s`, probability weights `w` summing to one, and per-sample component
moments matching independent unit-modulus zero-mean uncorrelated phases,
`E[conj (r i) * r j] = δ i j`. -/
def phaseDistribution {ι : Type} {N : ℕ} (s : Finset ι) (w : ι → ℝ)
    (r : ι → Fin N → ℂ) : Prop :=
  (∑ v ∈ s, w v = 1) ∧
    ∀ i j : Fin N,
      (∑ v ∈ s, (w v : ℂ) * ((starRingEnd ℂ) (r v i) * r v j)) =
        if i = j then 1 else 0

/-- The expected value of the single-vector quadratic form `⟨r| A |r⟩` under
a finitely supported distribution of random vectors. -/
noncomputable def expectationQF {ι : Type} {N : ℕ} (s : Finset ι) (w : ι → ℝ)
    (r : ι → Fin N → ℂ) (A : Matrix (Fin N) (Fin N) ℂ) : ℂ :=
  ∑ v ∈ s, (w v : ℂ) * innerC (r v) (A.mulVec (r v))

/-- Modelled from the spec: the Stochastic Trace Estimator output
`(1/R) * Σ k, ⟨r k| A |r k⟩` for a tuple of `R` random vectors, and its
expected value under a joint distribution of the tuples. -/
noncomputable def expectationTraceEstimate {ι : Type} {N R : ℕ} (s : Finset ι)
    (w : ι → ℝ) (vecs : ι → Fin R → Fin N → ℂ)
    (A : Matrix (Fin N) (Fin N) ℂ) : ℂ :=
  ∑ v ∈ s, (w v : ℂ) *
    ((R : ℂ)⁻¹ * ∑ k : Fin R, innerC (vecs v k) (A.mulVec (vecs v k)))

/-- Modelled from the spec: a deterministic seeded pseudo-random step (the
spec requires an explicit seed for reproducibility; the exact generator is
left open, a linear congruential step stands in for it). -/
def lcg (state : ℕ) : ℕ :=
  (state * 1103515245 + 12345) % 4294967296

/-- The iterated pseudo-random stream drawn from a seed. -/
def lcgIter (seed : ℕ) : ℕ → ℕ
  | 0 => lcg seed
  | n + 1 => lcg (lcgIter seed n)

/-- Modelled from the spec: the k-th random-phase starting vector drawn from
the seed; every component is a unit-modulus sign. -/
noncomputable def randomVector (N : ℕ) (seed k : ℕ) : Fin N → ℂ :=
  fun i => if lcgIter seed (k * N + i.val) % 2 = 0 then 1 else -1

/-- The diagonal moment sequence contributed by one starting vector. -/
noncomputable def dosContrib {N : ℕ} (H : Matrix (Fin N) (Fin N) ℂ) (M : ℕ)
    (v : Fin N → ℂ) : Fin M → ℂ :=
  fun n => moment H 1 v v n.val

/-- Modelled from the spec: the averaged stochastic DOS moment sequence for
`R` seeded random vectors, reduced sequentially in a fixed order. -/
noncomputable def calc_dos_moments {N : ℕ} (H : Matrix (Fin N) (Fin N) ℂ)
    (M R seed : ℕ) : Fin M → ℂ :=
  (R : ℂ)⁻¹ •
    ((List.range R).map fun k => dosContrib H M (randomVector N seed k)).sum

/-- Modelled from the spec: the same computation split over worker chunks: a
partition of the random-vector indices into ordered chunks, each chunk
reduced to a partial sum, the partial sums combined in the fixed chunk
order. -/
noncomputable def calc_dos_moments_chunked {N : ℕ}
    (H : Matrix (Fin N) (Fin N) ℂ) (M R seed : ℕ)
    (parts : List (List ℕ)) : Fin M → ℂ :=
  (R : ℂ)⁻¹ •
    (parts.map fun c =>
      (c.map fun k => dosContrib H M (randomVector N seed k)).sum).sum

/-- Modelled from the spec / the lattice tutorial text: recording one
declared hopping `(i, j, t)` adds the opposite hopping `(j, i, conj t)`
automatically. -/
noncomputable def add_hopping {N : ℕ} (H : Matrix (Fin N) (Fin N) ℂ)
    (i j : Fin N) (t : ℂ) : Matrix (Fin N) (Fin N) ℂ :=
  Matrix.of fun r c =>
    H r c + (if r = i ∧ c = j then t else 0) +
      (if r = j ∧ c = i then (starRingEnd ℂ) t else 0)

/-- Modelled from the spec: the Hamiltonian assembled from real onsite
energies and a list of declared hoppings, each declared hopping contributing
itself and its Hermitian conjugate. -/
noncomputable def hamiltonian {N : ℕ} (onsite : Fin N → ℝ)
    (hops : List (Fin N × Fin N × ℂ)) : Matrix (Fin N) (Fin N) ℂ :=
  hops.foldl (fun H h => add_hopping H h.1 h.2.1 h.2.2)
    (Matrix.diagonal fun i => ((onsite i : ℝ) : ℂ))

/-- A one-site Hamiltonian used as a concrete evaluation instance. -/
noncomputable def oneSiteH : Matrix (Fin 1) (Fin 1) ℂ := 0

/-- The unit starting vector on the one-site instance. -/
noncomputable def oneSiteAlpha : Fin 1 → ℂ := fun _ => 1

/-- C5: for every scaled broadening ε > 0 the Jackson kernel sizing rule
returns the ceiling of π / ε: the returned count is at least π / ε and lies
within one of it, so it is the least such integer. -/
theorem required_num_moments_is_ceil (ε : ℝ) (_hε : 0 < ε) :
    Real.pi / ε ≤ (required_num_moments ε : ℝ) ∧
      (required_num_moments ε : ℝ) - 1 < Real.pi / ε := by
  refine ⟨Int.le_ceil _, ?_⟩
  have h := Int.ceil_lt_add_one (Real.pi / ε)
  rw [required_num_moments]
  linarith

/-- Witness for C5 at the concrete scaled broadening ε = π. -/
theorem required_num_moments_is_ceil_witness :
    (0 : ℝ) < Real.pi ∧
      (Real.pi / Real.pi ≤ (required_num_moments Real.pi : ℝ) ∧
        (required_num_moments Real.pi : ℝ) - 1 < Real.pi / Real.pi) :=
  ⟨Real.pi_pos, required_num_moments_is_ceil Real.pi Real.pi_pos⟩

/-- C6: for every starting vector, operator and Hamiltonian, a requested
moment count below one makes the Moment Generator fail eagerly with
`InvalidMomentCountError`, returning no partial moment list. -/
theorem moments_rejects_low_count {N : ℕ} (H op : Matrix (Fin N) (Fin N) ℂ)
    (α β : Fin N → ℂ) (M : ℤ) (hM : M < 1) :
    moments H op α β M = Except.error KPMError.invalidMomentCount := by
  rw [moments, if_pos hM]

/-- Witness for C6 at the concrete moment count M = 0. -/
theorem moments_rejects_low_count_witness :
    (0 : ℤ) < 1 ∧
      moments oneSiteH 1 oneSiteAlpha oneSiteAlpha 0 =
        Except.error KPMError.invalidMomentCount :=
  ⟨by decide, moments_rejects_low_count oneSiteH 1 oneSiteAlpha oneSiteAlpha 0 (by decide)⟩

/-- C4: for every Hamiltonian and starting vector the zeroth moment of the
identity-operator diagonal expansion equals the inner product `⟨α|α⟩`, and
for a single-basis-vector starting vector it equals one. -/
theorem moment_zero_eq_norm {N : ℕ} (H : Matrix (Fin N) (Fin N) ℂ) (α : Fin N → ℂ) :
    moment H 1 α α 0 = innerC α α ∧
      ∀ j : Fin N, moment H 1 (Pi.single j 1) (Pi.single j 1) 0 = 1 := by
  constructor
  · rw [moment, chebVec, Matrix.one_mulVec]
  · intro j
    rw [moment, chebVec, Matrix.one_mulVec, innerC]
    simp [Pi.single_apply, apply_ite (starRingEnd ℂ)]

/-- C3 counterexample: on the one-site instance the scaling factors are
a = 1, b = 0, so the spectral bounds are [-1, 1]; requesting the energy
E = 2 = 2 * E_max does not produce `EnergyOutOfBoundsError`: the pipeline
returns an ordinary value. -/
theorem calc_ldos_no_error_at_twice_emax :
    calc_ldos_low_level oneSiteH oneSiteAlpha 1 1 0 [2] ≠
      Except.error KPMError.energyOutOfBounds := by
  rw [calc_ldos_low_level, moments]
  simp [Except.map]

/-- C3 amended: the low-level reconstruction performs no bounds check at
all: for every Hamiltonian, starting vector, scaling, and requested energy
list, the pipeline never raises `EnergyOutOfBoundsError`; out-of-range
energies are fed through the same reconstruction formula. -/
theorem calc_ldos_never_energy_error {N : ℕ} (H : Matrix (Fin N) (Fin N) ℂ)
    (α : Fin N → ℂ) (M : ℤ) (a b : ℝ) (energies : List ℝ) :
    calc_ldos_low_level H α M a b energies ≠
      Except.error KPMError.energyOutOfBounds := by
  rw [calc_ldos_low_level, moments]
  by_cases h : M < 1 <;> simp [h, Except.map]

/-- C10: the hand-written reconstruction consumes only the real part of
each moment: two moment lists of equal length with entry-wise equal real
parts reconstruct to the same value at every energy. -/
theorem ldos_depends_only_on_re (ms₁ ms₂ : List ℂ) (a b E : ℝ)
    (hlen : ms₁.length = ms₂.length)
    (hre : ∀ n : ℕ, (ms₁.getD n 0).re = (ms₂.getD n 0).re) :
    ldos ms₁ a b E = ldos ms₂ a b E := by
  rw [ldos, ldos, hlen]
  refine congrArg _ (Finset.sum_congr rfl fun n _ => ?_)
  rw [hre]

/-- Witness for C10: a purely imaginary moment list and the zero moment
list reconstruct identically. -/
theorem ldos_depends_only_on_re_witness :
    ldos [Complex.I] 1 0 0 = ldos [(0 : ℂ)] 1 0 0 :=
  ldos_depends_only_on_re [Complex.I] [(0 : ℂ)] 1 0 0 rfl
    (fun n => by cases n <;> simp [List.getD])

/-- The recurrence vectors are Chebyshev polynomials of the rescaled
Hamiltonian applied to the starting vector. -/
theorem chebVec_eq_aeval {N : ℕ} (H : Matrix (Fin N) (Fin N) ℂ) (α : Fin N → ℂ) :
    ∀ n : ℕ, chebVec H α n =
      (Polynomial.aeval H (Polynomial.Chebyshev.T ℂ (n : ℤ))).mulVec α := by
  intro n
  induction n using Nat.strong_induction_on with
  | _ n ih =>
    match n with
    | 0 =>
      rw [chebVec]
      norm_num [Polynomial.Chebyshev.T_zero, Matrix.one_mulVec]
    | 1 =>
      rw [chebVec]
      norm_num [Polynomial.Chebyshev.T_one, Polynomial.aeval_X]
    | (m + 2) =>
      rw [chebVec, ih (m + 1) (by omega), ih m (by omega)]
      have hc : ((m + 2 : ℕ) : ℤ) = (m : ℤ) + 2 := by push_cast; ring
      have hc1 : ((m + 1 : ℕ) : ℤ) = (m : ℤ) + 1 := by push_cast; ring
      rw [hc, hc1, Polynomial.Chebyshev.T_add_two, map_sub, map_mul, map_mul,
        Polynomial.aeval_X, map_ofNat]
      rw [Matrix.sub_mulVec]
      congr 1
      rw [← Matrix.mulVec_mulVec, ← Matrix.mulVec_mulVec]
      rw [two_smul, show (2 : Matrix (Fin N) (Fin N) ℂ) = 1 + 1 from by norm_num,
        Matrix.add_mulVec, Matrix.one_mulVec]

/-- C2: for every rescaled Hamiltonian, operator, starting vectors and
moment count M at least one, the Moment Generator returns exactly the
sequence `μ 0 .. μ (M-1)` of the three-term recurrence, and every entry
equals `⟨β| Op * T n (H) |α⟩` for the n-th Chebyshev polynomial `T n`. -/
theorem moments_are_chebyshev {N : ℕ} (H op : Matrix (Fin N) (Fin N) ℂ)
    (α β : Fin N → ℂ) (M : ℤ) (hM : 1 ≤ M) :
    moments H op α β M =
      Except.ok ((List.range M.toNat).map fun n : ℕ =>
        innerC β ((op * Polynomial.aeval H (Polynomial.Chebyshev.T ℂ (n : ℤ))).mulVec α)) := by
  rw [moments, if_neg (by omega)]
  refine congrArg Except.ok (List.map_congr_left fun n _ => ?_)
  rw [moment, chebVec_eq_aeval, Matrix.mulVec_mulVec]

/-- Witness for C2 on the one-site instance with M = 1. -/
theorem moments_are_chebyshev_witness :
    (1 : ℤ) ≤ 1 ∧
      moments oneSiteH 1 oneSiteAlpha oneSiteAlpha 1 =
        Except.ok ((List.range (1 : ℤ).toNat).map fun n : ℕ =>
          innerC oneSiteAlpha
            ((1 * Polynomial.aeval oneSiteH (Polynomial.Chebyshev.T ℂ (n : ℤ))).mulVec
              oneSiteAlpha)) :=
  ⟨by decide, moments_are_chebyshev oneSiteH 1 oneSiteAlpha oneSiteAlpha 1 (by decide)⟩

/-- C1 counterexample: for the damped moment list [1] with scaling a = 1,
b = 0 at the in-range energy E = 0 (so x = 0), the notebook reconstruction
returns 2 / π while the spec formula gives 1 / π: the code doubles the
zeroth term as well. -/
theorem ldos_counterexample_zeroth_term :
    ldos [(1 : ℂ)] 1 0 0 ≠ ldos_spec_formula [(1 : ℂ)] 1 0 0 := by
  have h1 : ldos [(1 : ℂ)] 1 0 0 = 2 / Real.pi := by
    rw [ldos]
    norm_num [Real.sqrt_one, Finset.sum_range_one, List.getD]
  have h2 : ldos_spec_formula [(1 : ℂ)] 1 0 0 = 1 / Real.pi := by
    rw [ldos_spec_formula]
    norm_num [Real.sqrt_one, List.getD]
  rw [h1, h2]
  intro h
  have hpi := Real.pi_ne_zero
  rw [div_eq_div_iff hpi hpi] at h
  have h2 : (2 : ℝ) = 1 := mul_right_cancel₀ hpi h
  norm_num at h2

/-- C1 amended: for every damped moment sequence, scaling factors and
energy with x strictly inside (-1, 1), the reconstruction returns
`(1/(a π sqrt (1-x^2))) * (2 g_0 μ_0 + 2 Σ_{n ≥ 1} g_n μ_n cos (n arccos x))`:
every term is doubled, the zeroth included; the halving of the zeroth term
is left to the moment producer. -/
theorem ldos_doubles_zeroth_term (ms : List ℂ) (a b E : ℝ)
    (_hx₁ : -1 < (E - b) / a) (_hx₂ : (E - b) / a < 1) :
    ldos ms a b E =
      (1 / (a * Real.pi * Real.sqrt (1 - ((E - b) / a) ^ 2))) *
        (2 * (ms.getD 0 0).re +
          2 * ∑ n ∈ Finset.range (ms.length - 1),
            (ms.getD (n + 1) 0).re * Real.cos ((n + 1 : ℕ) * Real.arccos ((E - b) / a))) := by
  cases ms with
  | nil => simp [ldos]
  | cons m t =>
    rw [ldos]
    show 2 / (a * Real.pi * Real.sqrt (1 - ((E - b) / a) ^ 2)) *
        ∑ n ∈ Finset.range (m :: t).length,
          ((m :: t).getD n 0).re * Real.cos (n * Real.arccos ((E - b) / a)) = _
    rw [List.length_cons, Finset.sum_range_succ']
    simp only [List.getD_cons_succ, List.getD_cons_zero, List.length_cons,
      Nat.add_sub_cancel, Nat.cast_zero, zero_mul, Real.cos_zero, mul_one]
    ring

/-- Witness for C1 amended at the moment list [1], a = 1, b = 0, E = 0. -/
theorem ldos_doubles_zeroth_term_witness :
    (-1 < ((0 : ℝ) - 0) / 1 ∧ ((0 : ℝ) - 0) / 1 < 1) ∧
      ldos [(1 : ℂ)] 1 0 0 =
        (1 / (1 * Real.pi * Real.sqrt (1 - (((0 : ℝ) - 0) / 1) ^ 2))) *
          (2 * (([(1 : ℂ)]).getD 0 0).re +
            2 * ∑ n ∈ Finset.range (([(1 : ℂ)]).length - 1),
              (([(1 : ℂ)]).getD (n + 1) 0).re *
                Real.cos ((n + 1 : ℕ) * Real.arccos (((0 : ℝ) - 0) / 1))) :=
  ⟨⟨by norm_num, by norm_num⟩,
    ldos_doubles_zeroth_term [(1 : ℂ)] 1 0 0 (by norm_num) (by norm_num)⟩

/-- Under any random-phase distribution the expected quadratic form equals
the trace. -/
theorem expectationQF_eq_trace {ι : Type} {N : ℕ} (s : Finset ι) (w : ι → ℝ)
    (r : ι → Fin N → ℂ) (A : Matrix (Fin N) (Fin N) ℂ)
    (h : phaseDistribution s w r) :
    expectationQF s w r A = A.trace := by
  rw [expectationQF]
  have key : ∀ v ∈ s, (w v : ℂ) * innerC (r v) (A.mulVec (r v)) =
      ∑ i, ∑ j, A i j * ((w v : ℂ) * ((starRingEnd ℂ) (r v i) * r v j)) := by
    intro v _
    rw [innerC, Finset.mul_sum]
    refine Finset.sum_congr rfl fun i _ => ?_
    simp only [Matrix.mulVec, Matrix.dotProduct]
    rw [Finset.mul_sum, Finset.mul_sum]
    refine Finset.sum_congr rfl fun j _ => ?_
    ring
  rw [Finset.sum_congr rfl key, Finset.sum_comm]
  have swap2 : ∀ i : Fin N,
      (∑ v ∈ s, ∑ j, A i j * ((w v : ℂ) * ((starRingEnd ℂ) (r v i) * r v j))) =
        ∑ j, A i j * ∑ v ∈ s, (w v : ℂ) * ((starRingEnd ℂ) (r v i) * r v j) := by
    intro i
    rw [Finset.sum_comm]
    exact Finset.sum_congr rfl fun j _ => (Finset.mul_sum _ _ _).symm
  rw [Finset.sum_congr rfl fun i _ => swap2 i]
  have hdelta : ∀ i : Fin N,
      (∑ j, A i j * ∑ v ∈ s, (w v : ℂ) * ((starRingEnd ℂ) (r v i) * r v j)) = A i i := by
    intro i
    rw [Finset.sum_congr rfl fun j _ => by rw [h.2 i j]]
    simp [mul_ite, Finset.sum_ite_eq]
  rw [Finset.sum_congr rfl fun i _ => hdelta i]
  rfl

/-- C7: for every fixed operator A, when the random vectors have
unit-modulus zero-mean uncorrelated component phases (so
`E[conj (r i) * r j] = δ i j`), the expected value of `⟨r| A |r⟩` equals
`Tr A`; hence for every number of random vectors R at least one, the
averaged estimate `(1/R) * Σ r, ⟨r| A |r⟩` is an unbiased estimator of the
trace. -/
theorem stochastic_trace_unbiased {ι : Type} {N R : ℕ} (s : Finset ι)
    (w : ι → ℝ) (vecs : ι → Fin R → Fin N → ℂ) (A : Matrix (Fin N) (Fin N) ℂ)
    (hR : 1 ≤ R)
    (hphase : ∀ k : Fin R, phaseDistribution s w fun v => vecs v k) :
    expectationTraceEstimate s w vecs A = A.trace := by
  rw [expectationTraceEstimate]
  have main : (∑ v ∈ s, ∑ k : Fin R, (w v : ℂ) * innerC (vecs v k) (A.mulVec (vecs v k)))
      = ∑ k : Fin R, expectationQF s w (fun v => vecs v k) A := by
    rw [Finset.sum_comm]
    rfl
  calc ∑ v ∈ s, (w v : ℂ) * ((R : ℂ)⁻¹ * ∑ k : Fin R, innerC (vecs v k) (A.mulVec (vecs v k)))
      = (R : ℂ)⁻¹ * ∑ v ∈ s, ∑ k : Fin R, (w v : ℂ) * innerC (vecs v k) (A.mulVec (vecs v k)) := by
        rw [Finset.mul_sum]
        refine Finset.sum_congr rfl fun v _ => ?_
        rw [mul_left_comm]
        congr 1
        exact Finset.mul_sum _ _ _
    _ = (R : ℂ)⁻¹ * ∑ k : Fin R, expectationQF s w (fun v => vecs v k) A := by rw [main]
    _ = (R : ℂ)⁻¹ * ((R : ℂ) * A.trace) := by
        rw [Finset.sum_congr rfl fun k _ => expectationQF_eq_trace s w _ A (hphase k),
          Finset.sum_const, Finset.card_univ, Fintype.card_fin, nsmul_eq_mul]
    _ = A.trace := by
        rw [← mul_assoc, inv_mul_cancel₀ (by exact_mod_cast Nat.one_le_iff_ne_zero.mp hR),
          one_mul]

/-- Witness for C7: the one-point distribution on the constant unit vector
over a one-site system, with R = 1 and A the identity. -/
theorem stochastic_trace_unbiased_witness :
    expectationTraceEstimate (Finset.univ : Finset (Fin 1)) (fun _ => 1)
        ((fun _ _ _ => 1) : Fin 1 → Fin 1 → Fin 1 → ℂ)
        (1 : Matrix (Fin 1) (Fin 1) ℂ) =
      Matrix.trace (1 : Matrix (Fin 1) (Fin 1) ℂ) :=
  stochastic_trace_unbiased Finset.univ (fun _ => 1)
    ((fun _ _ _ => 1) : Fin 1 → Fin 1 → Fin 1 → ℂ) 1 (Nat.le_refl 1)
    (fun _ => ⟨by simp, fun i j => by simp [Subsingleton.elim i j]⟩)

/-- Combining ordered chunk sums in order gives the sequential sum. -/
theorem sum_map_chunks {M : ℕ} (f : ℕ → (Fin M → ℂ)) (parts : List (List ℕ)) :
    (parts.map fun c => (c.map f).sum).sum = (parts.flatten.map f).sum := by
  induction parts with
  | nil => simp
  | cons c t ih => simp [List.map_append, List.sum_append, ih]

/-- C8: two runs of the stochastic DOS estimate with the same explicit
seed produce identical averaged moment sequences, whatever the chunking of
the random-vector indices across workers: every chunked run equals the
sequential run, so results are reproducible run-to-run and across
thread-count variations. -/
theorem calc_dos_reproducible {N : ℕ} (H : Matrix (Fin N) (Fin N) ℂ)
    (M R seed : ℕ) (parts₁ parts₂ : List (List ℕ))
    (h₁ : parts₁.flatten = List.range R) (h₂ : parts₂.flatten = List.range R) :
    calc_dos_moments_chunked H M R seed parts₁ =
        calc_dos_moments_chunked H M R seed parts₂ ∧
      calc_dos_moments_chunked H M R seed parts₁ = calc_dos_moments H M R seed := by
  have key : ∀ parts : List (List ℕ), parts.flatten = List.range R →
      calc_dos_moments_chunked H M R seed parts = calc_dos_moments H M R seed := by
    intro parts hp
    rw [calc_dos_moments_chunked, calc_dos_moments]
    congr 1
    rw [sum_map_chunks (fun k => dosContrib H M (randomVector N seed k)) parts, hp]
  exact ⟨(key parts₁ h₁).trans (key parts₂ h₂).symm, key parts₁ h₁⟩

/-- Witness for C8: a two-chunk run and a one-chunk run over the same two
seeded random vectors coincide. -/
theorem calc_dos_reproducible_witness :
    ([[0], [1]] : List (List ℕ)).flatten = List.range 2 ∧
      ([[0, 1]] : List (List ℕ)).flatten = List.range 2 ∧
      (calc_dos_moments_chunked oneSiteH 1 2 0 [[0], [1]] =
          calc_dos_moments_chunked oneSiteH 1 2 0 [[0, 1]] ∧
        calc_dos_moments_chunked oneSiteH 1 2 0 [[0], [1]] =
          calc_dos_moments oneSiteH 1 2 0) :=
  ⟨by decide, by decide,
    calc_dos_reproducible oneSiteH 1 2 0 [[0], [1]] [[0, 1]] (by decide) (by decide)⟩

/-- Adding a declared hopping together with its Hermitian conjugate
preserves the Hermitian invariant. -/
theorem add_hopping_hermitian {N : ℕ} {H : Matrix (Fin N) (Fin N) ℂ}
    (hH : ∀ r c, H r c = (starRingEnd ℂ) (H c r)) (p q : Fin N) (t : ℂ) :
    ∀ r c, add_hopping H p q t r c = (starRingEnd ℂ) (add_hopping H p q t c r) := by
  intro r c
  simp only [add_hopping, Matrix.of_apply, map_add, apply_ite (starRingEnd ℂ),
    map_zero, RingHomCompTriple.comp_apply, RingHom.id_apply]
  rw [hH r c]
  simp only [show (c = p ∧ r = q) ↔ (r = q ∧ c = p) from and_comm,
    show (c = q ∧ r = p) ↔ (r = p ∧ c = q) from and_comm]
  ring

/-- Folding any list of declared hoppings over a Hermitian seed matrix
keeps it Hermitian. -/
theorem foldl_hermitian {N : ℕ} (hops : List (Fin N × Fin N × ℂ)) :
    ∀ H : Matrix (Fin N) (Fin N) ℂ,
      (∀ r c, H r c = (starRingEnd ℂ) (H c r)) →
      ∀ r c, (hops.foldl (fun A h => add_hopping A h.1 h.2.1 h.2.2) H) r c =
        (starRingEnd ℂ)
          ((hops.foldl (fun A h => add_hopping A h.1 h.2.1 h.2.2) H) c r) := by
  induction hops with
  | nil => intro H hH; exact hH
  | cons h t ih =>
    intro H hH
    exact ih _ (add_hopping_hermitian hH h.1 h.2.1 h.2.2)

/-- C9: for every lattice specification that declares only one half of
each hopping pair, the assembled Hamiltonian satisfies the Hermitian
invariant `H i j = conj (H j i)` at every index pair: the opposite hopping
of every declared hopping is added automatically as its Hermitian
conjugate. -/
theorem hamiltonian_hermitian {N : ℕ} (onsite : Fin N → ℝ)
    (hops : List (Fin N × Fin N × ℂ)) (i j : Fin N) :
    hamiltonian onsite hops i j = (starRingEnd ℂ) (hamiltonian onsite hops j i) := by
  refine foldl_hermitian hops _ ?_ i j
  intro r c
  rcases eq_or_ne r c with h | h
  · subst h
    simp [Matrix.diagonal_apply_eq]
  · rw [Matrix.diagonal_apply_ne _ h, Matrix.diagonal_apply_ne _ (Ne.symm h), map_zero]

end KPMSpec
